import Mathlib

/-!
Shallow embedding of `ds/list/list.go` from rosedb: an in-memory list index
mapping string keys to doubly linked lists of byte slices.  A Go
`*list.List` value is modelled by `Option Seq`: `none` stands for a nil
pointer, `some s` for a (possibly empty) list holding the elements of `s`
head first.  The `record` map is modelled as an association list read by
first match, written by first-match replacement (Go maps have unique keys;
theorems that depend on it take a `Nodup` hypothesis).  Go `int` values are
modelled by `Int`: index arithmetic in the source only adds a non-negative
length to a value of magnitude at most the length and never overflows the
64-bit range for any list that fits in memory, with one exception — the
negation of the caller-supplied count in `LRem` can wrap at math.MinInt64
and is modelled with explicit two's-complement wrapping (`wrapInt64`).
The nil-pointer panic of `DumpIterate` on a nil sequence is modelled by
`dumpRecords` returning `none`.
-/

set_option autoImplicit false

namespace rosedb

/-- One stored element: a byte slice, modelled as a list of byte values. -/
abbrev Elem := List Nat

/-- The sequence backing one key's list, head first. -/
abbrev Seq := List Elem

/-- `sliceOfByteIsEqual` from list.go: compare lengths, then compare the
bytes pointwise. -/
def sliceOfByteIsEqual (a b : Elem) : Bool :=
  if a.length = b.length then
    (List.range a.length).all (fun i => a.getD i 0 == b.getD i 0)
  else false

/-- The list index. `record` maps keys to sequences; a key can be present
with a nil sequence (`none`), which is what `lis.record[key] = nil` in
`LTrim` leaves behind. -/
structure ListIdx where
  record : List (String × Option Seq)
  deriving DecidableEq

/-- Reading the map entry itself: `none` when the key is absent,
`some v` when present (where `v` may be a nil sequence). -/
def getEntry (lis : ListIdx) (key : String) : Option (Option Seq) :=
  List.lookup key lis.record

/-- `lis.record[key]` as the Go code reads it: nil (here `none`) both when
the key is absent and when it is present with a nil sequence. -/
def getItem (lis : ListIdx) (key : String) : Option Seq :=
  (getEntry lis key).join

/-- Overwrite the first entry with the given key, appending a fresh entry
when the key is absent. -/
def replaceEntry : List (String × Option Seq) → String → Option Seq →
    List (String × Option Seq)
  | [], key, v => [(key, v)]
  | (k, w) :: rest, key, v =>
      if k = key then (key, v) :: rest else (k, w) :: replaceEntry rest key v

/-- The map write `lis.record[key] = v`. -/
def setKey (lis : ListIdx) (key : String) (v : Option Seq) : ListIdx :=
  ⟨replaceEntry lis.record key v⟩

/-- `LKeyExists`: the comma-ok map read, true iff the entry is present
(even with a nil sequence). -/
def LKeyExists (lis : ListIdx) (key : String) : Bool :=
  (getEntry lis key).isSome

/-- `LLen`: 0 when the entry is absent or nil, else the sequence length. -/
def LLen (lis : ListIdx) (key : String) : Int :=
  match getItem lis key with
  | none => 0
  | some item => (item.length : Int)

/-- `LClear`: `delete(lis.record, key)` removes the map entry itself. -/
def LClear (lis : ListIdx) (key : String) : ListIdx :=
  ⟨lis.record.filter (fun p => !(p.1 == key))⟩

/-- `handleIndex` from list.go: offset negative indices by the length, floor
`start` at 0, cap `stop` at `length - 1`. -/
def handleIndex (length start stop : Int) : Int × Int :=
  let start := if start < 0 then start + length else start
  let stop := if stop < 0 then stop + length else stop
  let start := if start < 0 then 0 else start
  let stop := if stop ≥ length then length - 1 else stop
  (start, stop)

/-- `validIndex` from list.go: false on an absent/nil/empty list, otherwise
offset a negative index by the length and check it lands in `[0, length)`. -/
def validIndex (lis : ListIdx) (key : String) (i : Int) : Bool × Int :=
  match getItem lis key with
  | none => (false, i)
  | some item =>
      if item.length ≤ 0 then (false, i)
      else
        let L : Int := item.length
        let j := if i < 0 then i + L else i
        (decide (0 ≤ j ∧ j < L), j)

/-- `index` from list.go: resolve the logical index, then walk from the
front when the absolute offset is in the first half (`.drop`/`head?`) and
from the back otherwise (`.take`/`getLast?`). -/
def index (lis : ListIdx) (key : String) (i : Int) : Option Elem :=
  let r := validIndex lis key i
  if r.1 = false then none
  else
    match getItem lis key with
    | none => none
    | some item =>
        if 0 < item.length then
          if r.2 ≤ (item.length : Int) / 2 then (item.drop r.2.toNat).head?
          else (item.take (r.2.toNat + 1)).getLast?
        else none

/-- `LIndex`: the resolved element, or the nil byte slice when unresolved. -/
def LIndex (lis : ListIdx) (key : String) (i : Int) : Elem :=
  (index lis key i).getD []

/-- The scan loop of `find`: position of the first element byte-equal to
`v`, counting from absolute position `i`. -/
def findFrom : Seq → Elem → Nat → Option Nat
  | [], _, _ => none
  | x :: xs, v, i =>
      if sliceOfByteIsEqual x v then some i else findFrom xs v (i + 1)

/-- `find` from list.go, returning the matched node as its position. -/
def find (lis : ListIdx) (key : String) (val : Elem) : Option Nat :=
  match getItem lis key with
  | none => none
  | some item => findFrom item val 0

/-- `Before` insert option (iota value 0 of the Go `uint8` enum). -/
def Before : Nat := 0

/-- `After` insert option (iota value 1). -/
def After : Nat := 1

/-- `LInsert`: -1 when the pivot is not found, otherwise splice the value
in before or after the matched node; any other option value inserts
nothing and the current length is returned. -/
def LInsert (lis : ListIdx) (key : String) (opt : Nat) (pivot val : Elem) :
    Int × ListIdx :=
  match find lis key pivot with
  | none => (-1, lis)
  | some i =>
      let item := (getItem lis key).getD []
      let item' :=
        if opt = Before then item.take i ++ val :: item.drop i
        else if opt = After then item.take (i + 1) ++ val :: item.drop (i + 1)
        else item
      ((item'.length : Int), setKey lis key (some item'))

/-- `LRange` from list.go: normalize, reject empty ranges, then collect the
span, scanning forward (`take`/`drop`) when the cheaper side is the head and
backward otherwise — the backward scan accumulates the span reversed and
reverses it again before returning. -/
def LRange (lis : ListIdx) (key : String) (start stop : Int) : List Elem :=
  match getItem lis key with
  | none => []
  | some item =>
      if item.length ≤ 0 then []
      else
        let L : Int := item.length
        let p := handleIndex L start stop
        let s := p.1
        let e := p.2
        if s > e ∨ s ≥ L then []
        else
          let mid := L / 2
          if e ≤ mid ∨ e - mid < mid - s then
            (item.take (e.toNat + 1)).drop s.toNat
          else
            (((item.drop s.toNat).take (e.toNat + 1 - s.toNat)).reverse).reverse

/-- `LTrim` from list.go: no-op on an absent/nil/empty list and on a range
already covering the whole list; an empty normalized range stores a nil
sequence under the key; otherwise keep exactly positions `s..e`, either by
rebuilding a fresh sequence (kept span shorter than half) or by removing
the complement in place. -/
def LTrim (lis : ListIdx) (key : String) (start stop : Int) : Bool × ListIdx :=
  match getItem lis key with
  | none => (false, lis)
  | some item =>
      if item.length ≤ 0 then (false, lis)
      else
        let L : Int := item.length
        let p := handleIndex L start stop
        let s := p.1
        let e := p.2
        if s ≤ 0 ∧ e ≥ L - 1 then (false, lis)
        else if s > e ∨ s ≥ L then (true, setKey lis key none)
        else
          if e - s + 1 < L / 2 then
            (true, setKey lis key
              (some ((item.drop s.toNat).take (e.toNat + 1 - s.toNat))))
          else
            (true, setKey lis key
              (some ((item.take (e.toNat + 1)).drop s.toNat)))

/-- `push` from list.go: create the sequence when the map read gives nil,
then push each value in argument order at the chosen end. -/
def push (lis : ListIdx) (front : Bool) (key : String) (vals : List Elem) :
    Int × ListIdx :=
  let lis' :=
    match getItem lis key with
    | none => setKey lis key (some [])
    | some _ => lis
  let item := (getItem lis' key).getD []
  let item' := vals.foldl (fun acc v => if front then v :: acc else acc ++ [v]) item
  ((item'.length : Int), setKey lis' key (some item'))

/-- `LPush`: push at the head. -/
def LPush (lis : ListIdx) (key : String) (vals : List Elem) : Int × ListIdx :=
  push lis true key vals

/-- `RPush`: push at the tail. -/
def RPush (lis : ListIdx) (key : String) (vals : List Elem) : Int × ListIdx :=
  push lis false key vals

/-- `pop` from list.go: the nil byte slice on an absent/nil/empty list,
otherwise remove and return the element at the chosen end. -/
def pop (lis : ListIdx) (front : Bool) (key : String) : Elem × ListIdx :=
  match getItem lis key with
  | none => ([], lis)
  | some item =>
      if 0 < item.length then
        if front then (item.headD [], setKey lis key (some item.tail))
        else (item.getLastD [], setKey lis key (some item.dropLast))
      else ([], lis)

/-- `LPop`: pop at the head. -/
def LPop (lis : ListIdx) (key : String) : Elem × ListIdx :=
  pop lis true key

/-- `RPop`: pop at the tail. -/
def RPop (lis : ListIdx) (key : String) : Elem × ListIdx :=
  pop lis false key

/-- The `count == 0` collection loop of `LRem`: positions of every element
byte-equal to `v`, scanning head to tail from absolute position `i`. -/
def matchesFrom : Seq → Elem → Nat → List Nat
  | [], _, _ => []
  | x :: xs, v, i =>
      if sliceOfByteIsEqual x v then i :: matchesFrom xs v (i + 1)
      else matchesFrom xs v (i + 1)

/-- The `count > 0` loop of `LRem`: scan head to tail, stopping once
`budget` matches were collected. -/
def matchesFirst : Seq → Elem → Nat → Nat → List Nat
  | [], _, _, _ => []
  | x :: xs, v, budget, i =>
      if budget = 0 then []
      else if sliceOfByteIsEqual x v then i :: matchesFirst xs v (budget - 1) (i + 1)
      else matchesFirst xs v budget (i + 1)

/-- The `count < 0` loop of `LRem` scans from the back until `budget`
matched nodes were collected: exactly the last `budget` matches, met in
tail-to-head order. -/
def matchesLast (item : Seq) (v : Elem) (budget : Nat) : List Nat :=
  (matchesFrom item v 0).reverse.take budget

/-- The removal loop of `LRem`: drop the elements whose absolute position
(counting from `i`) was collected in `ps`. -/
def removePositions : Seq → List Nat → Nat → Seq
  | [], _, _ => []
  | x :: xs, ps, i =>
      if i ∈ ps then removePositions xs ps (i + 1)
      else x :: removePositions xs ps (i + 1)

/-- Two's-complement wrap of a 64-bit signed value: Go `int` arithmetic is
defined to wrap, so `-count` at `count = math.MinInt64` yields
`math.MinInt64` again.  9223372036854775808 is 2^63 and
18446744073709551616 is 2^64. -/
def wrapInt64 (n : Int) : Int :=
  (n + 9223372036854775808) % 18446744073709551616 - 9223372036854775808

/-- `LRem` from list.go: collect the matched nodes per the sign of `count`,
then remove them all and return how many were collected.  The back-scan
bound is Go's `-count`, which wraps: at `count = math.MinInt64` it is
negative again, so the loop collects nothing. -/
def LRem (lis : ListIdx) (key : String) (val : Elem) (count : Int) :
    Int × ListIdx :=
  match getItem lis key with
  | none => (0, lis)
  | some item =>
      let ele : List Nat :=
        if count = 0 then matchesFrom item val 0
        else if count > 0 then matchesFirst item val count.toNat 0
        else matchesLast item val (wrapInt64 (-count)).toNat
      ((ele.length : Int), setKey lis key (some (removePositions item ele 0)))

/-- The entry loop of `DumpIterate`: each key's sequence is walked head to
tail and emitted as a tail-push record for that key.  An entry holding a
nil sequence (what LTrim-to-empty leaves behind) makes the loop call
`l.Front()` on a nil `*list.List`, a nil-pointer dereference panic,
modelled as `none`. -/
def dumpEntries : List (String × Option Seq) → Option (List (String × Elem))
  | [] => some []
  | (_, none) :: _ => none
  | (k, some s) :: rest =>
      (dumpEntries rest).map (fun recs => s.map (fun x => (k, x)) ++ recs)

/-- `DumpIterate`: the records of every entry, or `none` when the iteration
panics on a nil sequence. -/
def dumpRecords (lis : ListIdx) : Option (List (String × Elem)) :=
  dumpEntries lis.record

/-- Replaying dump records: each visited record is applied as a tail push. -/
def replayDump (recs : List (String × Elem)) (lis : ListIdx) : ListIdx :=
  recs.foldl (fun acc kv => (RPush acc kv.1 [kv.2]).2) lis

/-- The logical list of a key: empty for an absent key or a nil sequence. -/
def logicalList (lis : ListIdx) (key : String) : Seq :=
  (getItem lis key).getD []

/-- Spec-side match collection, following the spec's words for `remove`:
scan head to tail and record the position of every occurrence byte-exactly
equal to `v` (byte-exact equality of byte slices is plain equality of the
modelled values). -/
def specMatchesFrom : Seq → Elem → Nat → List Nat
  | [], _, _ => []
  | x :: xs, v, i =>
      if x = v then i :: specMatchesFrom xs v (i + 1)
      else specMatchesFrom xs v (i + 1)

/-- All match positions, head to tail, per the spec. -/
def specMatches (item : Seq) (v : Elem) : List Nat :=
  specMatchesFrom item v 0

/-- Spec-side selection for `remove`: all matches when count = 0, the first
min(count, matches) when count > 0, the last min(|count|, matches) when
count < 0 (given as ascending positions). -/
def specSelect (item : Seq) (v : Elem) (c : Int) : List Nat :=
  if c = 0 then specMatches item v
  else if c > 0 then (specMatches item v).take c.toNat
  else (specMatches item v).drop
    ((specMatches item v).length - (-c).toNat)

/-! ### Basic lemmas about the embedding -/

theorem sliceOfByteIsEqual_iff (a b : Elem) :
    sliceOfByteIsEqual a b = true ↔ a = b := by
  unfold sliceOfByteIsEqual
  constructor
  · intro h
    by_cases hlen : a.length = b.length
    · rw [if_pos hlen] at h
      refine List.ext_getElem hlen ?_
      intro i h1 h2
      simp only [List.all_eq_true, List.mem_range, beq_iff_eq] at h
      have hi := h i h1
      rwa [List.getD_eq_getElem?_getD, List.getD_eq_getElem?_getD,
        List.getElem?_eq_getElem h1, List.getElem?_eq_getElem h2,
        Option.getD_some, Option.getD_some] at hi
    · rw [if_neg hlen] at h
      exact absurd h (by simp)
  · intro h
    subst h
    simp

theorem handleIndex_fst_nonneg (L a b : Int) : 0 ≤ (handleIndex L a b).1 := by
  simp only [handleIndex]
  split_ifs <;> omega

theorem handleIndex_snd_le (L a b : Int) : (handleIndex L a b).2 ≤ L - 1 := by
  simp only [handleIndex]
  split_ifs <;> omega

theorem lookup_replaceEntry_self (r : List (String × Option Seq))
    (k : String) (v : Option Seq) :
    List.lookup k (replaceEntry r k v) = some v := by
  induction r with
  | nil => simp [replaceEntry]
  | cons p rest ih =>
      obtain ⟨k0, w⟩ := p
      by_cases hk : k0 = k
      · simp [replaceEntry, hk]
      · simp only [replaceEntry, if_neg hk, List.lookup_cons]
        have : (k == k0) = false := by
          simpa [beq_iff_eq] using fun h => hk h.symm
        simp [this, ih]

theorem lookup_replaceEntry_ne (r : List (String × Option Seq))
    (k k' : String) (v : Option Seq) (h : k' ≠ k) :
    List.lookup k' (replaceEntry r k v) = List.lookup k' r := by
  have hb : (k' == k) = false := beq_eq_false_iff_ne.mpr h
  induction r with
  | nil => simp [replaceEntry, List.lookup_cons, hb]
  | cons p rest ih =>
      obtain ⟨k0, w⟩ := p
      by_cases hk : k0 = k
      · subst hk
        simp [replaceEntry, List.lookup_cons, hb]
      · simp [replaceEntry, if_neg hk, List.lookup_cons, ih]

theorem replaceEntry_lookup_eq (r : List (String × Option Seq))
    (k : String) (v : Option Seq) (h : List.lookup k r = some v) :
    replaceEntry r k v = r := by
  induction r with
  | nil => simp at h
  | cons p rest ih =>
      obtain ⟨k0, w⟩ := p
      by_cases hk : k0 = k
      · subst hk
        simp only [List.lookup_cons, beq_self_eq_true, cond_true,
          Option.some.injEq] at h
        subst h
        simp [replaceEntry]
      · have : (k == k0) = false := by
          simpa [beq_iff_eq] using fun hh => hk hh.symm
        simp only [List.lookup_cons, this, cond_false] at h
        simp [replaceEntry, if_neg hk, ih h]

theorem getEntry_setKey_self (lis : ListIdx) (k : String) (v : Option Seq) :
    getEntry (setKey lis k v) k = some v :=
  lookup_replaceEntry_self lis.record k v

theorem getEntry_setKey_ne (lis : ListIdx) (k k' : String) (v : Option Seq)
    (h : k' ≠ k) :
    getEntry (setKey lis k v) k' = getEntry lis k' :=
  lookup_replaceEntry_ne lis.record k k' v h

theorem setKey_eq_self (lis : ListIdx) (k : String) (v : Option Seq)
    (h : getEntry lis k = some v) : setKey lis k v = lis := by
  cases lis
  simp only [setKey, ListIdx.mk.injEq]
  exact replaceEntry_lookup_eq _ k v h

theorem getItem_setKey_self (lis : ListIdx) (k : String) (v : Option Seq) :
    getItem (setKey lis k v) k = v := by
  simp [getItem, getEntry_setKey_self]

theorem getItem_setKey_ne (lis : ListIdx) (k k' : String) (v : Option Seq)
    (h : k' ≠ k) :
    getItem (setKey lis k v) k' = getItem lis k' := by
  simp [getItem, getEntry_setKey_ne lis k k' v h]

theorem LKeyExists_setKey_self (lis : ListIdx) (k : String) (v : Option Seq) :
    LKeyExists (setKey lis k v) k = true := by
  simp [LKeyExists, getEntry_setKey_self]

theorem LKeyExists_setKey (lis : ListIdx) (k k' : String) (v : Option Seq)
    (h : LKeyExists lis k = true) :
    LKeyExists (setKey lis k v) k' = LKeyExists lis k' := by
  by_cases hk : k' = k
  · subst hk
    rw [LKeyExists_setKey_self, h]
  · simp [LKeyExists, getEntry_setKey_ne lis k k' v hk]

theorem getItem_of_getEntry (lis : ListIdx) (k : String) (item : Seq)
    (h : getItem lis k = some item) :
    getEntry lis k = some (some item) := by
  unfold getItem at h
  cases he : getEntry lis k with
  | none => rw [he] at h; simp at h
  | some v =>
      rw [he] at h
      cases v with
      | none => simp at h
      | some s => simp at h; rw [h]

theorem LKeyExists_of_getItem (lis : ListIdx) (k : String) (item : Seq)
    (h : getItem lis k = some item) : LKeyExists lis k = true := by
  simp [LKeyExists, getItem_of_getEntry lis k item h]

theorem getEntry_LClear (lis : ListIdx) (key : String) :
    getEntry (LClear lis key) key = none := by
  show List.lookup key (lis.record.filter fun p => !(p.1 == key)) = none
  rw [List.lookup_eq_none_iff]
  intro p hp
  have hmem := List.of_mem_filter hp
  simp only [Bool.not_eq_true'] at hmem
  simp [bne_iff_ne]
  intro h
  rw [h] at hmem
  simp at hmem

theorem head?_drop_eq {α : Type} (l : List α) (n : Nat) :
    (l.drop n).head? = l[n]? := by
  rw [List.head?_eq_getElem?, List.getElem?_drop]
  simp

theorem getLast?_take_eq {α : Type} (l : List α) (n : Nat) (h : n < l.length) :
    (l.take (n + 1)).getLast? = l[n]? := by
  rw [List.getLast?_take]
  simp [List.getElem?_eq_getElem h]

theorem index_spec (lis : ListIdx) (key : String) (item : Seq)
    (hit : getItem lis key = some item) (i j : Int)
    (hj : (if i < 0 then i + (item.length : Int) else i) = j) :
    index lis key i =
      if 0 ≤ j ∧ j < (item.length : Int) then item[j.toNat]? else none := by
  simp only [index, validIndex, hit, hj]
  by_cases hemp : item.length ≤ 0
  · rw [if_pos hemp]
    have hcond : ¬(0 ≤ j ∧ j < (item.length : Int)) := by omega
    simp [hcond]
  · rw [if_neg hemp]
    by_cases hcond : 0 ≤ j ∧ j < (item.length : Int)
    · have hjn : j.toNat < item.length := by omega
      have hd : decide (0 ≤ j ∧ j < (item.length : Int)) = true :=
        decide_eq_true hcond
      rw [hd, if_pos hcond, if_neg (by simp), if_pos (by omega)]
      by_cases hmid : (j : Int) ≤ (item.length : Int) / 2
      · rw [if_pos hmid, head?_drop_eq]
      · rw [if_neg hmid, getLast?_take_eq item j.toNat hjn]
    · have hd : decide (0 ≤ j ∧ j < (item.length : Int)) = false :=
        decide_eq_false hcond
      rw [hd, if_neg hcond]
      simp

theorem findFrom_mem (l : Seq) (v : Elem) (h : v ∈ l) :
    ∀ i : Nat, ∃ j, findFrom l v i = some j := by
  induction l with
  | nil => cases h
  | cons x xs ih =>
      intro i
      by_cases hx : sliceOfByteIsEqual x v = true
      · exact ⟨i, by simp [findFrom, hx]⟩
      · have hxv : x ≠ v := fun hh => hx ((sliceOfByteIsEqual_iff _ _).mpr hh)
        rcases List.mem_cons.mp h with h' | h'
        · exact absurd h'.symm hxv
        · obtain ⟨j, hjj⟩ := ih h' (i + 1)
          exact ⟨j, by simp [findFrom, hx, hjj]⟩

/-! ### Claim theorems -/

/-- C6: for a key whose list has length L, `LIndex key i` and
`LIndex key (i - L)` agree for every valid non-negative i < L (negative-index
aliasing, both resolving to the element at absolute offset i), and every
index whose absolute offset (negatives offset by L) falls outside [0, L)
yields the empty sentinel. -/
theorem LIndex_negative_alias (lis : ListIdx) (key : String) (item : Seq)
    (hit : getItem lis key = some item) :
    (∀ i : Int, 0 ≤ i → i < (item.length : Int) →
        LIndex lis key i = LIndex lis key (i - (item.length : Int)) ∧
        index lis key i = item[i.toNat]?) ∧
    (∀ i : Int,
        ((if i < 0 then i + (item.length : Int) else i) < 0 ∨
         (item.length : Int) ≤ (if i < 0 then i + (item.length : Int) else i)) →
        LIndex lis key i = []) := by
  constructor
  · intro i h0 hL
    have h1 : index lis key i = if 0 ≤ i ∧ i < (item.length : Int)
        then item[i.toNat]? else none :=
      index_spec lis key item hit i i (by rw [if_neg (by omega)])
    have h2 : index lis key (i - (item.length : Int)) =
        if 0 ≤ i ∧ i < (item.length : Int) then item[i.toNat]? else none :=
      index_spec lis key item hit (i - (item.length : Int)) i
        (by rw [if_pos (by omega)]; ring)
    refine ⟨?_, ?_⟩
    · unfold LIndex
      rw [h1, h2]
    · rw [h1, if_pos ⟨h0, hL⟩]
  · intro i hout
    have h1 : index lis key i =
        if 0 ≤ (if i < 0 then i + (item.length : Int) else i) ∧
           (if i < 0 then i + (item.length : Int) else i) < (item.length : Int)
        then item[(if i < 0 then i + (item.length : Int) else i).toNat]?
        else none :=
      index_spec lis key item hit i _ rfl
    unfold LIndex
    rw [h1, if_neg (by omega)]
    rfl

/-- C6 witness: on the list [[1],[2],[3]] under "k", index 1 and index -2
resolve to the same element, and index 3 is out of range. -/
theorem LIndex_negative_alias_witness :
    LIndex ⟨[("k", some [[1], [2], [3]])]⟩ "k" 1 =
      LIndex ⟨[("k", some [[1], [2], [3]])]⟩ "k" (-2) ∧
    LIndex ⟨[("k", some [[1], [2], [3]])]⟩ "k" 3 = [] := by
  constructor
  · exact ((LIndex_negative_alias ⟨[("k", some [[1], [2], [3]])]⟩ "k"
      [[1], [2], [3]] (by decide)).1 1 (by decide) (by decide)).1
  · exact (LIndex_negative_alias ⟨[("k", some [[1], [2], [3]])]⟩ "k"
      [[1], [2], [3]] (by decide)).2 3 (by decide)

/-- C2: trimming a non-empty list to a normalized range that is empty or out
of bounds returns true, empties the logical list (LLen 0) but keeps the map
entry (LKeyExists true), whereas LClear removes the entry itself. -/
theorem LTrim_empty_range (lis : ListIdx) (key : String) (start stop : Int)
    (item : Seq) (hit : getItem lis key = some item) (hne : item ≠ [])
    (s e : Int) (hse : handleIndex (item.length : Int) start stop = (s, e))
    (hcond : s > e ∨ s ≥ (item.length : Int)) :
    (LTrim lis key start stop).1 = true ∧
    LLen (LTrim lis key start stop).2 key = 0 ∧
    LKeyExists (LTrim lis key start stop).2 key = true ∧
    LKeyExists (LClear lis key) key = false := by
  have hL : 0 < item.length := List.length_pos.mpr hne
  have hs0 : 0 ≤ s := by
    have h := handleIndex_fst_nonneg (item.length : Int) start stop
    rw [hse] at h
    exact h
  have he1 : e ≤ (item.length : Int) - 1 := by
    have h := handleIndex_snd_le (item.length : Int) start stop
    rw [hse] at h
    exact h
  have htrim : LTrim lis key start stop = (true, setKey lis key none) := by
    simp only [LTrim, hit, hse]
    rw [if_neg (by omega), if_neg (by omega), if_pos hcond]
  refine ⟨?_, ?_, ?_, ?_⟩
  · rw [htrim]
  · rw [htrim]
    simp [LLen, getItem_setKey_self]
  · rw [htrim]
    exact LKeyExists_setKey_self lis key none
  · simp [LKeyExists, getEntry_LClear]

/-- C2 witness: trimming [[1],[2],[3]] with start=5 empties the list but
keeps the key, while LClear removes it. -/
theorem LTrim_empty_range_witness :
    (LTrim ⟨[("k", some [[1], [2], [3]])]⟩ "k" 5 6).1 = true ∧
    LLen (LTrim ⟨[("k", some [[1], [2], [3]])]⟩ "k" 5 6).2 "k" = 0 ∧
    LKeyExists (LTrim ⟨[("k", some [[1], [2], [3]])]⟩ "k" 5 6).2 "k" = true ∧
    LKeyExists (LClear ⟨[("k", some [[1], [2], [3]])]⟩ "k") "k" = false :=
  LTrim_empty_range ⟨[("k", some [[1], [2], [3]])]⟩ "k" 5 6
    [[1], [2], [3]] (by decide) (by decide) 5 2 (by decide) (by decide)

/-- C10: a pop never removes the key's map entry (LKeyExists is unchanged for
every key); popping from an absent key or an empty list returns the empty
sentinel and leaves the index unchanged; popping from a non-empty list leaves
the entry present with one element fewer — in particular, after popping the
last element, LKeyExists is still true while LLen is 0. -/
theorem pop_frame (lis : ListIdx) (front : Bool) (key : String) :
    (∀ k, LKeyExists (pop lis front key).2 k = LKeyExists lis k) ∧
    ((getItem lis key = none ∨ getItem lis key = some []) →
        pop lis front key = ([], lis)) ∧
    (∀ item, getItem lis key = some item → item ≠ [] →
        LKeyExists (pop lis front key).2 key = true ∧
        LLen (pop lis front key).2 key = (item.length : Int) - 1) := by
  cases hit : getItem lis key with
  | none =>
      refine ⟨?_, fun _ => by simp [pop, hit], ?_⟩
      · intro k
        simp [pop, hit]
      · intro item h
        simp at h
  | some item =>
      cases hne : item.length with
      | zero =>
          have hnil : item = [] := List.length_eq_zero.mp hne
          subst hnil
          refine ⟨?_, fun _ => by simp [pop, hit], ?_⟩
          · intro k
            simp [pop, hit]
          · intro item' h h'
            injection h with h
            exact absurd h.symm h'
      | succ n =>
          have hkey : LKeyExists lis key = true :=
            LKeyExists_of_getItem lis key item hit
          have hpop : (pop lis front key).2 =
              setKey lis key (some (if front then item.tail else item.dropLast)) := by
            cases front <;> simp [pop, hit, hne]
          refine ⟨?_, ?_, ?_⟩
          · intro k
            rw [hpop]
            exact LKeyExists_setKey lis key k _ hkey
          · intro h
            rcases h with h | h
            · simp at h
            · injection h with h
              subst h
              simp at hne
          · intro item' h _
            injection h with h
            subst h
            constructor
            · rw [hpop]
              exact LKeyExists_setKey_self lis key _
            · rw [hpop]
              have hlen : (if front then item.tail else item.dropLast).length =
                  item.length - 1 := by
                cases front <;> simp [List.length_tail, List.length_dropLast]
              simp only [LLen, getItem_setKey_self, hlen]
              rw [hne]
              push_cast
              omega

/-- C10 witness: popping the single element of [[7]] keeps the key with
LLen 0, and popping an absent key leaves everything unchanged. -/
theorem pop_frame_witness :
    LKeyExists (pop ⟨[("k", some [[7]])]⟩ true "k").2 "k" = true ∧
    LLen (pop ⟨[("k", some [[7]])]⟩ true "k").2 "k" = 0 ∧
    pop (⟨[]⟩ : ListIdx) true "q" = ([], ⟨[]⟩) := by
  have h := (pop_frame ⟨[("k", some [[7]])]⟩ true "k").2.2 [[7]]
    (by decide) (by decide)
  have h2 := (pop_frame (⟨[]⟩ : ListIdx) true "q").2.1 (Or.inl (by decide))
  exact ⟨h.1, h.2.trans (by decide), h2⟩

/-- C7 counterexample: a push of zero values on an absent key creates the
key's (empty) map entry, so LKeyExists flips from false to true — the index
is not left observably unchanged. -/
theorem push_empty_creates_entry :
    LKeyExists (⟨[]⟩ : ListIdx) "k" = false ∧
    LKeyExists (LPush (⟨[]⟩ : ListIdx) "k" []).2 "k" = true := by
  decide

/-- C7 amended: a push with zero values returns the current length and
leaves every key's logical list unchanged; when the key already has a map
entry, LKeyExists is unchanged for every key, but when the key is absent an
empty sequence entry is created, making LKeyExists(key) true. -/
theorem push_empty_noop (lis : ListIdx) (front : Bool) (key : String) :
    (push lis front key []).1 = LLen lis key ∧
    (∀ k, logicalList (push lis front key []).2 k = logicalList lis k) ∧
    LKeyExists (push lis front key []).2 key = true ∧
    (LKeyExists lis key = true →
        ∀ k, LKeyExists (push lis front key []).2 k = LKeyExists lis k) := by
  cases hit : getItem lis key with
  | some item =>
      have heq : (push lis front key []) = ((item.length : Int), lis) := by
        simp only [push, hit, List.foldl_nil, Option.getD_some]
        rw [setKey_eq_self lis key (some item) (getItem_of_getEntry lis key item hit)]
      rw [heq]
      refine ⟨by simp [LLen, hit], fun k => rfl, ?_, fun _ k => rfl⟩
      exact LKeyExists_of_getItem lis key item hit
  | none =>
      have heq : (push lis front key []) = (0, setKey lis key (some [])) := by
        simp only [push, hit, List.foldl_nil, getItem_setKey_self,
          Option.getD_some, List.length_nil, Nat.cast_zero]
        rw [setKey_eq_self (setKey lis key (some [])) key (some [])
          (getEntry_setKey_self lis key (some []))]
      rw [heq]
      refine ⟨by simp [LLen, hit], ?_, LKeyExists_setKey_self lis key _, ?_⟩
      · intro k
        by_cases hk : k = key
        · subst hk
          simp [logicalList, getItem_setKey_self, hit]
        · simp [logicalList, getItem_setKey_ne lis key k _ hk]
      · intro hex k
        exact LKeyExists_setKey lis key k _ hex

/-- C7 amended witness: an empty push on an existing two-element list
returns 2 and changes nothing observable. -/
theorem push_empty_noop_witness :
    (push ⟨[("k", some [[1], [2]])]⟩ false "k" []).1 = 2 ∧
    LKeyExists (push ⟨[("k", some [[1], [2]])]⟩ false "k" []).2 "k" = true ∧
    LKeyExists (push ⟨[("k", some [[1], [2]])]⟩ false "k" []).2 "k" =
      LKeyExists ⟨[("k", some [[1], [2]])]⟩ "k" := by
  have h := push_empty_noop ⟨[("k", some [[1], [2]])]⟩ false "k"
  exact ⟨h.1.trans (by decide), h.2.2.1, h.2.2.2 (by decide) "k"⟩

/-- C9: calling LInsert with an option value that is neither Before nor
After, on a key whose list contains the pivot, inserts nothing, leaves the
index unchanged, and returns the current length — which is never -1. -/
theorem LInsert_unknown_option (lis : ListIdx) (key : String) (opt : Nat)
    (pivot val : Elem) (item : Seq) (hit : getItem lis key = some item)
    (hpiv : pivot ∈ item) (h0 : opt ≠ Before) (h1 : opt ≠ After) :
    LInsert lis key opt pivot val = ((item.length : Int), lis) ∧
    (LInsert lis key opt pivot val).1 = LLen lis key ∧
    (LInsert lis key opt pivot val).1 ≠ -1 := by
  obtain ⟨j, hj⟩ := findFrom_mem item pivot hpiv 0
  have heq : LInsert lis key opt pivot val = ((item.length : Int), lis) := by
    simp only [LInsert, find, hit, hj, Option.getD_some, if_neg h0, if_neg h1]
    rw [setKey_eq_self lis key (some item) (getItem_of_getEntry lis key item hit)]
  refine ⟨heq, ?_, ?_⟩
  · rw [heq]
    simp [LLen, hit]
  · rw [heq]
    simp only []
    omega

/-- C9 witness: inserting with option value 2 on [[1],[2]] (pivot [1])
returns length 2 and leaves the index unchanged. -/
theorem LInsert_unknown_option_witness :
    LInsert ⟨[("k", some [[1], [2]])]⟩ "k" 2 [1] [9] =
      (2, ⟨[("k", some [[1], [2]])]⟩) :=
  (LInsert_unknown_option ⟨[("k", some [[1], [2]])]⟩ "k" 2 [1] [9]
    [[1], [2]] (by decide) (by decide) (by decide) (by decide)).1

theorem findFrom_spec (l : Seq) (v : Elem) :
    ∀ i0 j : Nat, findFrom l v i0 = some j →
      i0 ≤ j ∧ j - i0 < l.length ∧ l.getD (j - i0) [] = v ∧
        ∀ m < j - i0, l.getD m [] ≠ v := by
  induction l with
  | nil => intro i0 j h; simp [findFrom] at h
  | cons x xs ih =>
      intro i0 j h
      by_cases hx : sliceOfByteIsEqual x v = true
      · rw [findFrom, if_pos hx] at h
        injection h with h
        subst h
        have hxv : x = v := (sliceOfByteIsEqual_iff x v).mp hx
        refine ⟨le_refl _, by simp, by simp [hxv], ?_⟩
        intro m hm
        omega
      · rw [findFrom, if_neg hx] at h
        obtain ⟨h1, h2, h3, h4⟩ := ih (i0 + 1) j h
        have hd : j - i0 = (j - (i0 + 1)) + 1 := by omega
        refine ⟨by omega, by simp [hd]; omega, by rw [hd]; simpa using h3, ?_⟩
        intro m hm
        cases m with
        | zero =>
            simp only [List.getD_cons_zero]
            exact fun hh => hx ((sliceOfByteIsEqual_iff x v).mpr hh)
        | succ m' =>
            simp only [List.getD_cons_succ]
            exact h4 m' (by omega)

theorem findFrom_eq_none (l : Seq) (v : Elem) (h : ∀ x ∈ l, x ≠ v) :
    ∀ i : Nat, findFrom l v i = none := by
  induction l with
  | nil => intro i; rfl
  | cons x xs ih =>
      intro i
      have hx : ¬sliceOfByteIsEqual x v = true :=
        fun hh => h x (List.mem_cons_self x xs) ((sliceOfByteIsEqual_iff x v).mp hh)
      rw [findFrom, if_neg hx]
      exact ih (fun y hy => h y (List.mem_cons_of_mem x hy)) (i + 1)

/-- C3: LRange returns the elements at normalized positions s..e (negatives
offset by the length, s floored at 0, e capped at length-1) in head-to-tail
order — the same slice whichever traversal direction the implementation
picks — and returns empty when the key has no non-empty list, when s > e, or
when s ≥ length. -/
theorem LRange_spec (lis : ListIdx) (key : String) (start stop : Int) :
    ((getItem lis key = none ∨ getItem lis key = some []) →
        LRange lis key start stop = []) ∧
    (∀ item s e, getItem lis key = some item → item ≠ [] →
        handleIndex (item.length : Int) start stop = (s, e) →
        ((s > e ∨ s ≥ (item.length : Int)) → LRange lis key start stop = []) ∧
        (s ≤ e →
            LRange lis key start stop =
              (item.drop s.toNat).take (e.toNat + 1 - s.toNat))) := by
  constructor
  · intro h
    rcases h with h | h <;> simp [LRange, h]
  · intro item s e hit hne hse
    have hL : 0 < item.length := List.length_pos.mpr hne
    have hs0 : 0 ≤ s := by
      have h := handleIndex_fst_nonneg (item.length : Int) start stop
      rw [hse] at h
      exact h
    have he1 : e ≤ (item.length : Int) - 1 := by
      have h := handleIndex_snd_le (item.length : Int) start stop
      rw [hse] at h
      exact h
    constructor
    · intro hc
      simp only [LRange, hit, hse]
      rw [if_neg (by omega), if_pos hc]
    · intro hle
      simp only [LRange, hit, hse]
      rw [if_neg (by omega), if_neg (by omega)]
      split
      · exact List.drop_take _ _ _
      · exact List.reverse_reverse _

/-- C3 witness: LRange [[1],[2],[3],[4]] 1 (-1) returns positions 1..3. -/
theorem LRange_spec_witness :
    LRange ⟨[("k", some [[1], [2], [3], [4]])]⟩ "k" 1 (-1) =
      [[2], [3], [4]] := by
  have h := ((LRange_spec ⟨[("k", some [[1], [2], [3], [4]])]⟩ "k" 1 (-1)).2
    [[1], [2], [3], [4]] 1 3 (by decide) (by decide) (by decide)).2 (by decide)
  exact h.trans (by decide)

/-- C1: when the normalized range [s, e] is a proper non-empty sub-range of
[0, L-1], LTrim returns true and the stored sequence becomes exactly the
elements previously at positions s..e in order (whichever of the two
trimming strategies runs); when the normalized range covers the whole list,
LTrim returns false and the index is unchanged. -/
theorem LTrim_proper_subrange (lis : ListIdx) (key : String) (start stop : Int)
    (item : Seq) (hit : getItem lis key = some item)
    (s e : Int) (hse : handleIndex (item.length : Int) start stop = (s, e)) :
    (s ≤ e ∧ ¬(s = 0 ∧ e = (item.length : Int) - 1) →
        (LTrim lis key start stop).1 = true ∧
        getItem (LTrim lis key start stop).2 key =
          some ((item.drop s.toNat).take (e.toNat + 1 - s.toNat))) ∧
    (s = 0 ∧ e = (item.length : Int) - 1 →
        LTrim lis key start stop = (false, lis)) := by
  have hs0 : 0 ≤ s := by
    have h := handleIndex_fst_nonneg (item.length : Int) start stop
    rw [hse] at h
    exact h
  have he1 : e ≤ (item.length : Int) - 1 := by
    have h := handleIndex_snd_le (item.length : Int) start stop
    rw [hse] at h
    exact h
  constructor
  · rintro ⟨hle, hproper⟩
    simp only [LTrim, hit, hse]
    rw [if_neg (by omega), if_neg (by omega), if_neg (by omega)]
    split
    · exact ⟨rfl, by rw [getItem_setKey_self]⟩
    · refine ⟨rfl, ?_⟩
      rw [getItem_setKey_self, List.drop_take]
  · intro hfull
    by_cases hemp : item.length ≤ 0
    · simp only [LTrim, hit]
      rw [if_pos hemp]
    · simp only [LTrim, hit, hse]
      rw [if_neg hemp, if_pos (by omega)]

/-- C1 witness: trimming [[1],[2],[3],[4]] to 1..2 keeps [[2],[3]] and
returns true; trimming to the full range 0..-1 is a no-op returning false. -/
theorem LTrim_proper_subrange_witness :
    (LTrim ⟨[("k", some [[1], [2], [3], [4]])]⟩ "k" 1 2).1 = true ∧
    getItem (LTrim ⟨[("k", some [[1], [2], [3], [4]])]⟩ "k" 1 2).2 "k" =
      some [[2], [3]] ∧
    LTrim ⟨[("k", some [[1], [2], [3], [4]])]⟩ "k" 0 (-1) =
      (false, ⟨[("k", some [[1], [2], [3], [4]])]⟩) := by
  have h := (LTrim_proper_subrange ⟨[("k", some [[1], [2], [3], [4]])]⟩ "k" 1 2
    [[1], [2], [3], [4]] (by decide) 1 2 (by decide)).1 ⟨by decide, by decide⟩
  have h2 := (LTrim_proper_subrange ⟨[("k", some [[1], [2], [3], [4]])]⟩ "k"
    0 (-1) [[1], [2], [3], [4]] (by decide) 0 3 (by decide)).2 ⟨rfl, by decide⟩
  exact ⟨h.1, h.2.trans (by decide), h2⟩

/-- C5: with a Before/After option, LInsert returns -1 and leaves the index
unchanged when the key has no list or no element is byte-equal to the pivot;
otherwise it splices the value immediately before/after the first head-scan
match, returns the old length plus one, keeps all other entries untouched,
and preserves the relative order of the other elements (the result is
take j ++ val :: drop j of the old sequence). -/
theorem LInsert_spec (lis : ListIdx) (key : String) (opt : Nat)
    (hopt : opt = Before ∨ opt = After) (pivot val : Elem) :
    ((getItem lis key = none ∨ (∀ x ∈ (getItem lis key).getD [], x ≠ pivot)) →
        LInsert lis key opt pivot val = (-1, lis)) ∧
    (∀ item i, getItem lis key = some item → findFrom item pivot 0 = some i →
        (i < item.length ∧ item.getD i [] = pivot ∧
            ∀ m < i, item.getD m [] ≠ pivot) ∧
        (LInsert lis key opt pivot val).1 = (item.length : Int) + 1 ∧
        getItem (LInsert lis key opt pivot val).2 key =
          some (item.take (if opt = Before then i else i + 1) ++
            val :: item.drop (if opt = Before then i else i + 1)) ∧
        (∀ k, k ≠ key →
            getEntry (LInsert lis key opt pivot val).2 k = getEntry lis k)) := by
  constructor
  · intro h
    cases hit : getItem lis key with
    | none => simp [LInsert, find, hit]
    | some item =>
        rcases h with h | h
        · rw [hit] at h
          cases h
        · rw [hit] at h
          simp only [Option.getD_some] at h
          simp [LInsert, find, hit, findFrom_eq_none item pivot h 0]
  · intro item i hit hfind
    obtain ⟨-, hlt, hat, hfirst⟩ := findFrom_spec item pivot 0 i hfind
    rw [Nat.sub_zero] at hlt hat
    have hfirst' : ∀ m < i, item.getD m [] ≠ pivot := by
      intro m hm
      have := hfirst m (by omega)
      simpa using this
    have hins : LInsert lis key opt pivot val =
        (((item.take (if opt = Before then i else i + 1) ++
            val :: item.drop (if opt = Before then i else i + 1)).length : Int),
          setKey lis key (some (item.take (if opt = Before then i else i + 1) ++
            val :: item.drop (if opt = Before then i else i + 1)))) := by
      rcases hopt with hobf | hoaf
      · simp [LInsert, find, hit, hfind, hobf]
      · have hne : opt ≠ Before := by
          rw [hoaf]
          decide
        simp [LInsert, find, hit, hfind, hoaf, hne, After, Before]
    refine ⟨⟨hlt, hat, hfirst'⟩, ?_, ?_, ?_⟩
    · rw [hins]
      simp only [List.length_append, List.length_take, List.length_cons,
        List.length_drop]
      have hj : (if opt = Before then i else i + 1) ≤ item.length := by
        split <;> omega
      push_cast
      split <;> omega
    · rw [hins]
      exact getItem_setKey_self lis key _
    · intro k hk
      rw [hins]
      exact getEntry_setKey_ne lis key k _ hk

/-- C5 witness: inserting [9] before the first [2] in [[1],[2]] returns
length 3 with list [[1],[9],[2]]; inserting after an absent pivot returns
-1 and changes nothing. -/
theorem LInsert_spec_witness :
    (LInsert ⟨[("k", some [[1], [2]])]⟩ "k" Before [2] [9]).1 = 3 ∧
    getItem (LInsert ⟨[("k", some [[1], [2]])]⟩ "k" Before [2] [9]).2 "k" =
      some [[1], [9], [2]] ∧
    LInsert ⟨[("k", some [[1], [2]])]⟩ "k" After [7] [9] =
      (-1, ⟨[("k", some [[1], [2]])]⟩) := by
  have h := (LInsert_spec ⟨[("k", some [[1], [2]])]⟩ "k" Before (Or.inl rfl)
    [2] [9]).2 [[1], [2]] 1 (by decide) (by decide)
  have h2 := (LInsert_spec ⟨[("k", some [[1], [2]])]⟩ "k" After (Or.inr rfl)
    [7] [9]).1 (Or.inr (by decide))
  exact ⟨h.2.1.trans (by decide), h.2.2.1.trans (by decide), h2⟩

theorem matchesFrom_eq_spec (l : Seq) (v : Elem) :
    ∀ i, matchesFrom l v i = specMatchesFrom l v i := by
  induction l with
  | nil => intro i; rfl
  | cons x xs ih =>
      intro i
      by_cases hx : x = v
      · rw [matchesFrom, if_pos ((sliceOfByteIsEqual_iff x v).mpr hx),
          specMatchesFrom, if_pos hx, ih]
      · rw [matchesFrom, if_neg (fun hh => hx ((sliceOfByteIsEqual_iff x v).mp hh)),
          specMatchesFrom, if_neg hx, ih]

theorem specMatchesFrom_le (l : Seq) (v : Elem) :
    ∀ i, ∀ j ∈ specMatchesFrom l v i, i ≤ j := by
  induction l with
  | nil => intro i j hj; simp [specMatchesFrom] at hj
  | cons x xs ih =>
      intro i j hj
      rw [specMatchesFrom] at hj
      split at hj
      · rcases List.mem_cons.mp hj with h | h
        · omega
        · have := ih (i + 1) j h
          omega
      · have := ih (i + 1) j hj
        omega

theorem matchesFirst_eq_take (l : Seq) (v : Elem) :
    ∀ b i, matchesFirst l v b i = (matchesFrom l v i).take b := by
  induction l with
  | nil => intro b i; simp [matchesFirst, matchesFrom]
  | cons x xs ih =>
      intro b i
      cases b with
      | zero => simp [matchesFirst]
      | succ b' =>
          by_cases hx : sliceOfByteIsEqual x v = true
          · rw [matchesFirst, if_neg (Nat.succ_ne_zero b'), if_pos hx,
              matchesFrom, if_pos hx, List.take_succ_cons,
              Nat.succ_sub_one, ih]
          · rw [matchesFirst, if_neg (Nat.succ_ne_zero b'), if_neg hx,
              matchesFrom, if_neg hx, ih]

theorem removePositions_congr (l : Seq) (ps ps' : List Nat) :
    ∀ i, (∀ m, i ≤ m → (m ∈ ps ↔ m ∈ ps')) →
      removePositions l ps i = removePositions l ps' i := by
  induction l with
  | nil => intro i _; rfl
  | cons x xs ih =>
      intro i h
      have hi := h i (le_refl i)
      by_cases hm : i ∈ ps
      · rw [removePositions, if_pos hm, removePositions, if_pos (hi.mp hm)]
        exact ih (i + 1) (fun m hm' => h m (by omega))
      · rw [removePositions, if_neg hm,
          removePositions, if_neg (fun hh => hm (hi.mpr hh)),
          ih (i + 1) (fun m hm' => h m (by omega))]

theorem removePositions_sublist (l : Seq) (ps : List Nat) :
    ∀ i, List.Sublist (removePositions l ps i) l := by
  induction l with
  | nil => intro i; exact List.Sublist.refl []
  | cons x xs ih =>
      intro i
      rw [removePositions]
      split
      · exact (ih (i + 1)).trans (List.sublist_cons_self x xs)
      · exact List.Sublist.cons₂ x (ih (i + 1))

theorem removePositions_spec_filter (l : Seq) (v : Elem) :
    ∀ i, removePositions l (specMatchesFrom l v i) i =
      l.filter (fun x => !(x == v)) := by
  induction l with
  | nil => intro i; rfl
  | cons x xs ih =>
      intro i
      by_cases hx : x = v
      · rw [specMatchesFrom, if_pos hx, removePositions,
          if_pos (List.mem_cons_self _ _),
          removePositions_congr xs (i :: specMatchesFrom xs v (i + 1))
            (specMatchesFrom xs v (i + 1)) (i + 1)
            (fun m hm => by
              constructor
              · intro hmem
                rcases List.mem_cons.mp hmem with h | h
                · omega
                · exact h
              · exact fun h => List.mem_cons_of_mem i h),
          ih (i + 1), List.filter_cons]
        have hb : (!(x == v)) = false := by simp [hx]
        rw [hb]
        simp
      · rw [specMatchesFrom, if_neg hx, removePositions,
          if_neg (fun hh => by
            have := specMatchesFrom_le xs v (i + 1) i hh
            omega),
          ih (i + 1), List.filter_cons]
        have hb : (!(x == v)) = true := by simp [hx]
        rw [hb]
        simp

theorem matchesLast_mem_iff (item : Seq) (v : Elem) (b m : Nat) :
    m ∈ matchesLast item v b ↔ m ∈ specSelect item v (-(b : Int)) ∧ 0 < b := by
  cases hb : b with
  | zero => simp [matchesLast]
  | succ b' =>
      rw [← hb]
      unfold matchesLast specSelect
      rw [matchesFrom_eq_spec]
      have hbpos : ¬((-(b : Int)) = 0) := by omega
      have hbneg : ¬((-(b : Int)) > 0) := by omega
      rw [if_neg hbpos, if_neg hbneg]
      rw [List.take_reverse, List.mem_reverse]
      have : (-(-(b : Int))).toNat = b := by omega
      rw [this]
      unfold specMatches
      constructor
      · exact fun h => ⟨h, by omega⟩
      · exact fun h => h.1

theorem wrapInt64_eq_self (n : Int) (h1 : -9223372036854775808 ≤ n)
    (h2 : n < 9223372036854775808) : wrapInt64 n = n := by
  unfold wrapInt64
  omega

theorem removePositions_nil (l : Seq) : ∀ i, removePositions l [] i = l := by
  induction l with
  | nil => intro i; rfl
  | cons x xs ih =>
      intro i
      rw [removePositions, if_neg (List.not_mem_nil i), ih]

/-- C4 counterexample: at count = math.MinInt64 = -2^63 Go's negation of the
count wraps back to MinInt64, so the back-scan loop never runs: LRem removes
nothing and returns 0, although the list holds an occurrence of the value —
the claim predicts removing min(|count|, 1) = 1 occurrence and returning 1. -/
theorem LRem_min_int64_wrap :
    LRem ⟨[("k", some [[1], [2]])]⟩ "k" [1] (-9223372036854775808) =
      (0, ⟨[("k", some [[1], [2]])]⟩) ∧
    [1] ∈ ([[1], [2]] : Seq) := by
  decide

/-- C4 (amended): for every count other than math.MinInt64, LRem removes
exactly the byte-exact occurrences of v selected by count (all when
count = 0; the first min(count, matches) scanning head to tail when
count > 0; the last min(|count|, matches) scanning tail to head when
count < 0), collecting the matched positions before removing any of them,
returns the number removed (0 when the key has no list), and the remaining
elements keep their relative order (the result is a sublist of the old
sequence; for count = 0 it is exactly the filter dropping v).  At
count = math.MinInt64 the negated count wraps, so nothing is removed and 0
is returned. -/
theorem LRem_spec (lis : ListIdx) (key : String) (v : Elem) (c : Int) :
    (getItem lis key = none → LRem lis key v c = (0, lis)) ∧
    (-9223372036854775808 < c → ∀ item, getItem lis key = some item →
        (LRem lis key v c).1 = ((specSelect item v c).length : Int) ∧
        (specSelect item v c).length =
          (if c = 0 then (specMatches item v).length
           else min c.natAbs (specMatches item v).length) ∧
        getItem (LRem lis key v c).2 key =
          some (removePositions item (specSelect item v c) 0) ∧
        List.Sublist (removePositions item (specSelect item v c) 0) item ∧
        (c = 0 → getItem (LRem lis key v c).2 key =
          some (item.filter (fun x => !(x == v)))) ∧
        (∀ k, k ≠ key →
            getEntry (LRem lis key v c).2 k = getEntry lis k)) ∧
    (c = -9223372036854775808 → ∀ item, getItem lis key = some item →
        (LRem lis key v c).1 = 0 ∧
        getItem (LRem lis key v c).2 key = some item) := by
  refine ⟨?_, ?_, ?_⟩
  · intro h
    simp [LRem, h]
  · intro hc item hit
    have hele : ∀ r, removePositions item
        (if c = 0 then matchesFrom item v 0
         else if c > 0 then matchesFirst item v c.toNat 0
         else matchesLast item v (wrapInt64 (-c)).toNat) r =
        removePositions item (specSelect item v c) r := by
      intro r
      by_cases h0 : c = 0
      · rw [if_pos h0, matchesFrom_eq_spec]
        unfold specSelect
        rw [if_pos h0]
        rfl
      · by_cases hpos : c > 0
        · rw [if_neg h0, if_pos hpos, matchesFirst_eq_take, matchesFrom_eq_spec]
          unfold specSelect
          rw [if_neg h0, if_pos hpos]
          rfl
        · rw [if_neg h0, if_neg hpos,
            wrapInt64_eq_self (-c) (by omega) (by omega)]
          refine removePositions_congr item _ _ r (fun m _ => ?_)
          have hb : (-((-c).toNat : Int)) = c := by omega
          have := matchesLast_mem_iff item v (-c).toNat m
          rw [hb] at this
          rw [this]
          constructor
          · exact fun h => h.1
          · intro h
            exact ⟨h, by omega⟩
    have hlen : (if c = 0 then matchesFrom item v 0
         else if c > 0 then matchesFirst item v c.toNat 0
         else matchesLast item v (wrapInt64 (-c)).toNat).length =
        (specSelect item v c).length := by
      by_cases h0 : c = 0
      · rw [if_pos h0, matchesFrom_eq_spec]
        unfold specSelect
        rw [if_pos h0]
        rfl
      · by_cases hpos : c > 0
        · rw [if_neg h0, if_pos hpos, matchesFirst_eq_take, matchesFrom_eq_spec]
          unfold specSelect
          rw [if_neg h0, if_pos hpos]
          rfl
        · rw [if_neg h0, if_neg hpos,
            wrapInt64_eq_self (-c) (by omega) (by omega)]
          unfold matchesLast specSelect
          rw [if_neg h0, if_neg hpos, matchesFrom_eq_spec]
          rw [List.length_take, List.length_drop, List.length_reverse]
          unfold specMatches
          omega
    refine ⟨?_, ?_, ?_, ?_, ?_, ?_⟩
    · simp only [LRem, hit]
      rw [hlen]
    · unfold specSelect
      by_cases h0 : c = 0
      · rw [if_pos h0, if_pos h0]
      · by_cases hpos : c > 0
        · rw [if_neg h0, if_pos hpos, if_neg h0, List.length_take]
          have : c.toNat = c.natAbs := by omega
          rw [this]
        · rw [if_neg h0, if_neg hpos, if_neg h0, List.length_drop]
          have : (-c).toNat = c.natAbs := by omega
          rw [this]
          omega
    · simp only [LRem, hit]
      rw [getItem_setKey_self, hele]
    · exact removePositions_sublist item _ 0
    · intro h0
      simp only [LRem, hit]
      rw [getItem_setKey_self, hele]
      unfold specSelect
      rw [if_pos h0]
      unfold specMatches
      rw [removePositions_spec_filter]
    · intro k hk
      simp only [LRem, hit]
      exact getEntry_setKey_ne lis key k _ hk
  · intro hc item hit
    subst hc
    have hwrap : (wrapInt64 (9223372036854775808 : Int)).toNat = 0 := by
      decide
    have hcode : LRem lis key v (-9223372036854775808) =
        (((matchesLast item v 0).length : Int),
          setKey lis key (some (removePositions item (matchesLast item v 0) 0))) := by
      simp only [LRem, hit]
      rw [if_neg (by decide), if_neg (by decide), neg_neg, hwrap]
    have hml : matchesLast item v 0 = [] := by
      unfold matchesLast
      exact List.take_zero _
    constructor
    · rw [hcode, hml]
      rfl
    · rw [hcode, getItem_setKey_self, hml, removePositions_nil]

/-- C4 witness: removing the last two occurrences of [1] from
[[1],[2],[1],[3],[1]] (count -2) removes two elements and leaves
[[1],[2],[3]]; removal on an absent key returns 0; at count = math.MinInt64
nothing is removed. -/
theorem LRem_spec_witness :
    (LRem ⟨[("k", some [[1], [2], [1], [3], [1]])]⟩ "k" [1] (-2)).1 = 2 ∧
    getItem (LRem ⟨[("k", some [[1], [2], [1], [3], [1]])]⟩ "k" [1] (-2)).2 "k" =
      some [[1], [2], [3]] ∧
    LRem (⟨[]⟩ : ListIdx) "q" [1] 0 = (0, ⟨[]⟩) ∧
    (LRem ⟨[("q", some [[1], [2]])]⟩ "q" [1] (-9223372036854775808)).1 = 0 := by
  have h := (LRem_spec ⟨[("k", some [[1], [2], [1], [3], [1]])]⟩ "k" [1]
    (-2)).2.1 (by decide) [[1], [2], [1], [3], [1]] (by decide)
  have h2 := (LRem_spec (⟨[]⟩ : ListIdx) "q" [1] 0).1 (by decide)
  have h3 := ((LRem_spec ⟨[("q", some [[1], [2]])]⟩ "q" [1]
    (-9223372036854775808)).2.2 rfl [[1], [2]] (by decide)).1
  exact ⟨h.1.trans (by decide), h.2.2.1.trans (by decide), h2, h3⟩

theorem logicalList_RPush (lis : ListIdx) (k' : String) (v : Elem)
    (k : String) :
    logicalList (RPush lis k' [v]).2 k =
      if k = k' then logicalList lis k ++ [v] else logicalList lis k := by
  cases hit : getItem lis k' with
  | some item =>
      have h2 : (RPush lis k' [v]).2 = setKey lis k' (some (item ++ [v])) := by
        simp [RPush, push, hit]
      rw [h2]
      by_cases hk : k = k'
      · subst hk
        simp [logicalList, getItem_setKey_self, hit]
      · simp [logicalList, getItem_setKey_ne lis k' k _ hk, if_neg hk]
  | none =>
      have h2 : (RPush lis k' [v]).2 =
          setKey (setKey lis k' (some [])) k' (some [v]) := by
        simp [RPush, push, hit, getItem_setKey_self]
      rw [h2]
      by_cases hk : k = k'
      · subst hk
        simp [logicalList, getItem_setKey_self, hit]
      · rw [if_neg hk]
        simp [logicalList, getItem_setKey_ne _ k' k _ hk]

theorem logicalList_replayDump (recs : List (String × Elem)) :
    ∀ (lis0 : ListIdx) (k : String),
      logicalList (replayDump recs lis0) k =
        logicalList lis0 k ++
          (recs.filter (fun kv => kv.1 == k)).map Prod.snd := by
  induction recs with
  | nil => intro lis0 k; simp [replayDump]
  | cons kv rest ih =>
      intro lis0 k
      have hstep : replayDump (kv :: rest) lis0 =
          replayDump rest (RPush lis0 kv.1 [kv.2]).2 := rfl
      rw [hstep, ih, logicalList_RPush, List.filter_cons]
      by_cases hk : kv.1 = k
      · have hb : (kv.1 == k) = true := beq_iff_eq.mpr hk
        rw [hb, if_pos hk.symm]
        simp
      · have hb : (kv.1 == k) = false := beq_eq_false_iff_ne.mpr hk
        rw [hb, if_neg (fun hh => hk hh.symm)]
        simp

theorem dumpEntries_fst_mem (r : List (String × Option Seq)) :
    ∀ recs, dumpEntries r = some recs →
      ∀ kv ∈ recs, kv.1 ∈ r.map Prod.fst := by
  induction r with
  | nil =>
      intro recs h kv hkv
      rw [dumpEntries] at h
      injection h with h
      subst h
      simp at hkv
  | cons p rest ih =>
      obtain ⟨k0, v⟩ := p
      intro recs h kv hkv
      cases v with
      | none =>
          rw [dumpEntries] at h
          simp at h
      | some s =>
          rw [dumpEntries] at h
          cases hrest : dumpEntries rest with
          | none =>
              rw [hrest] at h
              simp at h
          | some recs' =>
              rw [hrest] at h
              simp only [Option.map_some', Option.some.injEq] at h
              subst h
              rcases List.mem_append.mp hkv with hm | hm
              · rw [List.mem_map] at hm
                obtain ⟨x, _, rfl⟩ := hm
                simp
              · have := ih recs' hrest kv hm
                simp only [List.map_cons]
                exact List.mem_cons_of_mem _ this

theorem dumpEntries_filter (r : List (String × Option Seq)) :
    ∀ recs, dumpEntries r = some recs → (r.map Prod.fst).Nodup →
      ∀ k, (recs.filter (fun kv => kv.1 == k)).map Prod.snd =
        logicalList ⟨r⟩ k := by
  induction r with
  | nil =>
      intro recs h _ k
      rw [dumpEntries] at h
      injection h with h
      subst h
      simp [logicalList, getItem, getEntry]
  | cons p rest ih =>
      obtain ⟨k0, v⟩ := p
      intro recs h hnd k
      cases v with
      | none =>
          rw [dumpEntries] at h
          simp at h
      | some s =>
          rw [dumpEntries] at h
          cases hrest : dumpEntries rest with
          | none =>
              rw [hrest] at h
              simp at h
          | some recs' =>
              rw [hrest] at h
              simp only [Option.map_some', Option.some.injEq] at h
              subst h
              rw [List.filter_append, List.map_append]
              simp only [List.map_cons, List.nodup_cons, List.mem_map] at hnd
              by_cases hk : k0 = k
              · subst hk
                have hfull : (s.map (fun x => (k0, x))).filter
                    (fun kv => kv.1 == k0) = s.map (fun x => (k0, x)) := by
                  rw [List.filter_eq_self]
                  intro a ha
                  rw [List.mem_map] at ha
                  obtain ⟨x, _, rfl⟩ := ha
                  exact beq_self_eq_true k0
                have hrest2 : recs'.filter (fun kv => kv.1 == k0) = [] := by
                  rw [List.filter_eq_nil_iff]
                  intro a ha hb
                  have hmem := dumpEntries_fst_mem rest recs' hrest a ha
                  rw [beq_iff_eq] at hb
                  rw [hb] at hmem
                  rw [List.mem_map] at hmem
                  obtain ⟨q, hq, hq1⟩ := hmem
                  exact hnd.1 ⟨q, hq, hq1⟩
                rw [hfull, hrest2]
                have hlog : logicalList ⟨(k0, some s) :: rest⟩ k0 = s := by
                  simp [logicalList, getItem, getEntry, List.lookup_cons]
                rw [hlog]
                simp [List.map_map, Function.comp]
              · have hempty : (s.map (fun x => (k0, x))).filter
                    (fun kv => kv.1 == k) = [] := by
                  rw [List.filter_eq_nil_iff]
                  intro a ha hb
                  rw [List.mem_map] at ha
                  obtain ⟨x, _, rfl⟩ := ha
                  rw [beq_iff_eq] at hb
                  exact hk hb
                have hlog : logicalList ⟨(k0, some s) :: rest⟩ k =
                    logicalList ⟨rest⟩ k := by
                  have hb : (k == k0) = false := beq_eq_false_iff_ne.mpr
                    (fun hh => hk hh.symm)
                  simp [logicalList, getItem, getEntry, List.lookup_cons, hb]
                rw [hempty, hlog, ih recs' hrest hnd.2 k]
                rfl

theorem dump_replay_roundtrip (lis : ListIdx)
    (hnd : (lis.record.map Prod.fst).Nodup)
    (recs : List (String × Elem)) (hdump : dumpRecords lis = some recs) :
    ∀ k, logicalList (replayDump recs ⟨[]⟩) k = logicalList lis k := by
  intro k
  rw [logicalList_replayDump,
    dumpEntries_filter lis.record recs hdump hnd k]
  simp [logicalList, getItem, getEntry]

theorem dump_replay_roundtrip_example :
    logicalList (replayDump [("a", [1]), ("a", [2]), ("b", [3])] ⟨[]⟩) "a" =
      logicalList ⟨[("a", some [[1], [2]]), ("b", some [[3]])]⟩ "a" ∧
    logicalList (replayDump [("a", [1]), ("a", [2]), ("b", [3])] ⟨[]⟩) "b" =
      logicalList ⟨[("a", some [[1], [2]]), ("b", some [[3]])]⟩ "b" :=
  ⟨dump_replay_roundtrip ⟨[("a", some [[1], [2]]), ("b", some [[3]])]⟩
      (by decide) [("a", [1]), ("a", [2]), ("b", [3])] (by decide) "a",
    dump_replay_roundtrip ⟨[("a", some [[1], [2]]), ("b", some [[3]])]⟩
      (by decide) [("a", [1]), ("a", [2]), ("b", [3])] (by decide) "b"⟩

/-- C8: DumpIterate does not round-trip every index state: on the state that
LTrim-to-empty leaves behind — the key's map entry holding a nil sequence —
the iteration calls l.Front() on a nil *list.List and panics (modelled as
the dump returning none), so no record stream exists to replay, although
the spec promises panic-free iteration that visits every element.  The
replay theorem dump_replay_roundtrip holds on every state whose dump
completes. -/
theorem dump_nil_sequence_panics :
    (LTrim ⟨[("k", some [[1], [2]])]⟩ "k" 5 6).2 = ⟨[("k", none)]⟩ ∧
    dumpRecords (LTrim ⟨[("k", some [[1], [2]])]⟩ "k" 5 6).2 = none := by
  decide

end rosedb
